import Mathlib

/-!
Verification of the ESI Cap'n Proto schema/codec synthesis engine
(`lib/Dialect/ESI/capnp/Schema.cpp`).

The development shallowly embeds the engine: hardware types and values are
inductive types, the segment memory model is an explicit sorted interval
list, and the generated encoder/decoder circuits are modelled by the
functions on bit lists (`List Bool`, index = bit offset in the message)
that the emitted netlists compute.  Bit vectors are least-significant-bit
first: integer constants materialized by the gasket builders place bit 0 of
the integer at the lowest message offset, matching Cap'n Proto's
little-endian-within-word layout and the array-concatenation reversal done
by `GasketComponent::concat`.
-/

namespace ESICapnp

/-- Signedness of an MLIR `IntegerType`. -/
inductive Sg where
  | signless
  | signed
  | unsigned
deriving DecidableEq

/-- Hardware types handled by the schema engine: `IntegerType`,
`rtl::ArrayType`, `rtl::StructType` and `rtl::TypeAliasType`. -/
inductive HWType where
  | int (sg : Sg) (width : Nat)
  | array (elem : HWType) (size : Nat)
  | strct (fields : List (String × HWType))
  | typeAlias (name : String) (inner : HWType)

mutual

/-- Structural equality test on hardware types (MLIR types are uniqued, so
C++ `Type` equality is structural equality). -/
def HWType.beq : HWType → HWType → Bool
  | .int s w, .int t v => s == t && w == v
  | .array e n, .array f m => HWType.beq e f && n == m
  | .strct fs, .strct gs => HWType.beqFields fs gs
  | .typeAlias n i, .typeAlias m j => n == m && HWType.beq i j
  | _, _ => false

/-- Structural equality test on struct field lists. -/
def HWType.beqFields : List (String × HWType) → List (String × HWType) → Bool
  | [], [] => true
  | (a, t) :: r, (b, u) :: s => a == b && HWType.beq t u && HWType.beqFields r s
  | _, _ => false

end

mutual

theorem HWType.beq_iff : ∀ a b : HWType, HWType.beq a b = true ↔ a = b
  | .int s w, b => by
    cases b <;> simp [HWType.beq]
  | .array e n, b => by
    cases b <;> simp [HWType.beq, HWType.beq_iff e]
  | .strct fs, b => by
    cases b <;> simp [HWType.beq, HWType.beqFields_iff fs]
  | .typeAlias n i, b => by
    cases b <;> simp [HWType.beq, HWType.beq_iff i]

theorem HWType.beqFields_iff :
    ∀ fs gs : List (String × HWType), HWType.beqFields fs gs = true ↔ fs = gs
  | [], gs => by
    cases gs <;> simp [HWType.beqFields]
  | (a, t) :: r, gs => by
    cases gs with
    | nil => simp [HWType.beqFields]
    | cons hd tl =>
      cases hd with
      | mk b u =>
        simp [HWType.beqFields, HWType.beq_iff t, HWType.beqFields_iff r, and_assoc]

end

instance : DecidableEq HWType :=
  fun a b => decidable_of_iff (HWType.beq a b = true) (HWType.beq_iff a b)

/-- Model of `rtl::getCanonicalType`: resolve type aliases. -/
def getCanonicalType : HWType → HWType
  | .typeAlias _ inner => getCanonicalType inner
  | t => t

mutual

/-- Model of the static `isSupported(Type, bool outer)` helper
(`Schema.cpp`, lines 279-298): integers are supported iff their width is at
most 64, arrays iff their element type is supported, structs only at the
outer level and only if every element type is supported.  Aliases are
resolved first. -/
def isSupported (t : HWType) (outer : Bool) : Bool :=
  match t with
  | .typeAlias _ inner => isSupported inner outer
  | .int _ w => w ≤ 64
  | .array e _ => isSupported e false
  | .strct fs => outer && allFieldsSupported fs

/-- The struct branch of `isSupported`: every element type supported. -/
def allFieldsSupported : List (String × HWType) → Bool
  | [] => true
  | (_, t) :: rest => isSupported t false && allFieldsSupported rest

end

/-- Model of `TypeSchemaImpl::isSupported` (`Schema.cpp`, line 301). -/
def TypeSchemaImpl.isSupported (t : HWType) : Bool :=
  ESICapnp.isSupported t true

/-- Model of the `fieldTypes` list assembled by the `TypeSchemaImpl`
constructor (`Schema.cpp`, lines 194-207): an integer wraps into a single
field named `i`, an array into a single field named `l`, a struct
contributes its own elements, anything else contributes nothing. -/
def fieldTypes (t : HWType) : List (String × HWType) :=
  match getCanonicalType t with
  | .int sg w => [("i", .int sg w)]
  | .array e n => [("l", .array e n)]
  | .strct fs => fs
  | .typeAlias _ _ => []

/-! ### The MLIR textual form of a type

`capnpTypeID` hashes the MLIR assembly form of the type (`osName << type`).
The printer below reproduces MLIR's syntax for the four type categories the
engine accepts. -/

mutual

/-- Textual form of one hardware type, as MLIR prints it. -/
def typeText : HWType → String
  | .int .signless w => "i" ++ toString w
  | .int .signed w => "si" ++ toString w
  | .int .unsigned w => "ui" ++ toString w
  | .array e n => "!rtl.array<" ++ toString n ++ "x" ++ typeText e ++ ">"
  | .strct fs => "!rtl.struct<" ++ String.intercalate ", " (fieldTexts fs) ++ ">"
  | .typeAlias n _ => "!rtl.typealias<@" ++ n ++ ">"

/-- The printed `name: type` forms of a struct's fields. -/
def fieldTexts : List (String × HWType) → List String
  | [] => []
  | (n, t) :: rest => (n ++ ": " ++ typeText t) :: fieldTexts rest

end

/-! ### The deterministic 64-bit hash

`TypeSchemaImpl::capnpTypeID` (`Schema.cpp`, lines 254-276) pads the
textual form with spaces to a multiple of 64 bytes, then folds the 64-byte
blocks through `llvm::hashing::detail::hash_33to64_bytes` seeded with
`esiCosimSchemaVersion`, and finally forces the high bit.  The hash is the
fixed CityHash-derived routine from LLVM's `Hashing.h`, reproduced here on
`Nat` with explicit reduction modulo `2 ^ 64`. -/

/-- Two to the sixty-fourth, the modulus of all 64-bit arithmetic here. -/
def two64 : Nat := 2 ^ 64

/-- 64-bit addition. -/
def add64 (a b : Nat) : Nat := (a + b) % two64

/-- 64-bit multiplication. -/
def mul64 (a b : Nat) : Nat := (a * b) % two64

/-- 64-bit right rotation (LLVM `hashing::detail::rotate`). -/
def rotate64 (v shift : Nat) : Nat :=
  ((v >>> shift) ||| (v <<< (64 - shift))) % two64

/-- LLVM `hashing::detail::shift_mix`. -/
def shiftMix (v : Nat) : Nat := v ^^^ (v >>> 47)

/-- CityHash constant k0. -/
def k0 : Nat := 0xc3a5c85c97cb3127
/-- CityHash constant k2. -/
def k2 : Nat := 0x9ae16a3b2f90404f

/-- Little-endian 8-byte load at byte offset `off` (LLVM `fetch64`). -/
def fetch64 (bytes : List Nat) (off : Nat) : Nat :=
  (List.range 8).foldl (fun acc k => acc + (bytes.getD (off + k) 0) <<< (8 * k)) 0

/-- LLVM `hashing::detail::hash_33to64_bytes` on a byte list. -/
def hash33to64 (s : List Nat) (len seed : Nat) : Nat :=
  let z0 := fetch64 s 24
  let a0 := add64 (fetch64 s 0) (mul64 (add64 len (fetch64 s (len - 16))) k0)
  let b0 := rotate64 (add64 a0 z0) 52
  let c0 := rotate64 a0 37
  let a1 := add64 a0 (fetch64 s 8)
  let c1 := add64 c0 (rotate64 a1 7)
  let a2 := add64 a1 (fetch64 s 16)
  let vf := add64 a2 z0
  let vs := add64 (add64 b0 (rotate64 a2 31)) c1
  let a3 := add64 (fetch64 s 16) (fetch64 s (len - 32))
  let z1 := fetch64 s (len - 8)
  let b1 := rotate64 (add64 a3 z1) 52
  let c2 := rotate64 a3 37
  let a4 := add64 a3 (fetch64 s (len - 24))
  let c3 := add64 c2 (rotate64 a4 7)
  let a5 := add64 a4 (fetch64 s (len - 16))
  let wf := add64 a5 z1
  let ws := add64 (add64 b1 (rotate64 a5 31)) c3
  let r := shiftMix (add64 (mul64 (add64 vf ws) k2) (mul64 (add64 wf vs) k0))
  mul64 (shiftMix (add64 ((seed ^^^ (mul64 r k0)) % two64) vs)) k2

/-- Modelled from the spec: the versioned seed `esiCosimSchemaVersion` of the
type-ID hash.  Its defining header is not part of the sources here; the spec
only requires a fixed version constant. -/
def esiCosimSchemaVersion : Nat := 1

/-- The bytes of a string (the engine only ever hashes ASCII). -/
def strBytes (s : String) : List Nat :=
  s.toList.map (fun c => c.toNat % 256)

/-- The textual type name padded with spaces to a multiple of 64 bytes
(`osName.indent(64 - overhang)` in `capnpTypeID`). -/
def paddedTypeName (t : HWType) : List Nat :=
  let base := strBytes (typeText t)
  let overhang := base.length % 64
  if overhang = 0 then base else base ++ List.replicate (64 - overhang) 32

/-- Model of `TypeSchemaImpl::capnpTypeID` (`Schema.cpp`, lines 254-276):
fold the 64-byte blocks of the padded type name through the hash, then set
the high bit. -/
def capnpTypeID (t : HWType) : Nat :=
  let bytes := paddedTypeName t
  let hash := (List.range (bytes.length / 64)).foldl
    (fun h i => hash33to64 (bytes.drop (i * 64)) 64 h) esiCosimSchemaVersion
  hash ||| 0x8000000000000000

/-! ### Cap'n Proto types

The subset of `::capnp::schema::Type` reachable from `emitCapnpType`:
`Void`, `Bool`, the four signed and four unsigned integer widths, and
`List(...)`. -/

/-- Cap'n Proto types the engine can emit. -/
inductive CapnpTy where
  | void
  | bool
  | uint8
  | uint16
  | uint32
  | uint64
  | int8
  | int16
  | int32
  | int64
  | list (elem : CapnpTy)
deriving DecidableEq

/-- Model of `bitsEncoding` (`Schema.cpp`, lines 137-166): the encoding
value for the size of a Cap'n Proto type. -/
def bitsEncoding : CapnpTy → Nat
  | .void => 0
  | .bool => 1
  | .uint8 | .int8 => 2
  | .uint16 | .int16 => 3
  | .uint32 | .int32 => 4
  | .uint64 | .int64 => 5
  | .list _ => 6

/-- Model of `bits` (`Schema.cpp`, lines 169-176): the number of bits used
by a Cap'n Proto type. -/
def bits (ty : CapnpTy) : Nat :=
  let enc := bitsEncoding ty
  if enc ≤ 1 then enc
  else if enc = 6 then 64
  else 1 <<< (enc + 1)

/-- Model of `isPointerType` (`Schema.cpp`, lines 179-192). -/
def isPointerType : CapnpTy → Bool
  | .list _ => true
  | _ => false

/-- Model of `emitCapnpType` (`Schema.cpp`, lines 378-422): the Cap'n Proto
type emitted for a hardware type, `none` where the source asserts
(integers wider than 64 bits, structs inside structs). -/
def emitCapnpType : HWType → Option CapnpTy
  | .typeAlias _ inner => emitCapnpType inner
  | .int sg w =>
    if w = 0 then some .void
    else if w = 1 then some .bool
    else if w ≤ 8 then some (if sg = .signed then .int8 else .uint8)
    else if w ≤ 16 then some (if sg = .signed then .int16 else .uint16)
    else if w ≤ 32 then some (if sg = .signed then .int32 else .uint32)
    else if w ≤ 64 then some (if sg = .signed then .int64 else .uint64)
    else none
  | .array e _ => (emitCapnpType e).map .list
  | .strct _ => none

/-- The textual spelling of an emitted Cap'n Proto type. -/
def capnpTyText : CapnpTy → String
  | .void => "Void"
  | .bool => "Bool"
  | .uint8 => "UInt8"
  | .uint16 => "UInt16"
  | .uint32 => "UInt32"
  | .uint64 => "UInt64"
  | .int8 => "Int8"
  | .int16 => "Int16"
  | .int32 => "Int32"
  | .int64 => "Int64"
  | .list e => "List(" ++ capnpTyText e ++ ")"

/-! ### The authoritative struct layout

`TypeSchemaImpl::getTypeSchema` hands the emitted schema text to the real
Cap'n Proto schema compiler and reads back the struct node (data word
count, pointer count, per-field slot offsets).  That compiler is an
external library, so its layout algorithm is modelled here from the spec:
scalar fields are packed into the data section smallest-hole-first in
declaration (code) order with offsets in units of their own size, pointer
fields get consecutive pointer-section slots, and the data section grows a
word at a time. -/

/-- Running state of the struct layout: data words and pointer slots used
so far, plus the free holes of each power-of-two bit size `2 ^ lg` for
`lg < 6` (entry `0` means no hole, matching the external compiler's
encoding, where bit offset zero of the struct can never be a hole). -/
structure LayoutState where
  dataWordCount : Nat
  pointerCount : Nat
  holes : List Nat

/-- Recursion core of `tryAllocate`, structural on the number `rem` of
hole sizes still above `lg` (so `rem = 6 - lg`). -/
def tryAllocateAux (holes : List Nat) (lg : Nat) : Nat → Option (Nat × List Nat)
  | 0 => none
  | rem + 1 =>
    if holes.getD lg 0 ≠ 0 then
      some (holes.getD lg 0, holes.set lg 0)
    else
      match tryAllocateAux holes (lg + 1) rem with
      | some (next, hs) => some (next * 2, hs.set lg (next * 2 + 1))
      | none => none

/-- Modelled from the spec: hole allocation of the external schema
compiler's struct layout.  Take the hole of exactly `2 ^ lg` bits if there
is one, else split the smallest larger hole, recording the upper half as a
new hole of the requested size. -/
def tryAllocate (holes : List Nat) (lg : Nat) : Option (Nat × List Nat) :=
  tryAllocateAux holes lg (6 - lg)

/-- Recursion core of `addHolesAtEnd`, structural on `rem = 6 - lg`. -/
def addHolesAtEndAux (holes : List Nat) (lg offset : Nat) : Nat → List Nat
  | 0 => holes
  | rem + 1 => addHolesAtEndAux (holes.set lg offset) (lg + 1) ((offset + 1) / 2) rem

/-- Modelled from the spec: after placing a `2 ^ lg`-bit field at (odd)
offset `offset - 1` of a fresh word, record the rest of the word as holes,
one per size from `2 ^ lg` up to 32 bits. -/
def addHolesAtEnd (holes : List Nat) (lg offset : Nat) : List Nat :=
  addHolesAtEndAux holes lg offset (6 - lg)

/-- Modelled from the spec: allocate a `2 ^ lg`-bit data slot, either from
a hole or by appending a new data word.  Returns the offset in units of
`2 ^ lg` bits. -/
def addData (st : LayoutState) (lg : Nat) : Nat × LayoutState :=
  match tryAllocate st.holes lg with
  | some (off, hs) => (off, { st with holes := hs })
  | none =>
    let off := st.dataWordCount <<< (6 - lg)
    (off, { dataWordCount := st.dataWordCount + 1,
            pointerCount := st.pointerCount,
            holes := addHolesAtEnd st.holes lg (off + 1) })

/-- The `lg` of the data-section slot size of a non-pointer Cap'n Proto
type (64-bit scalars take a whole word, `lg = 6`). -/
def lgSizeData : CapnpTy → Nat
  | .bool => 0
  | .uint8 | .int8 => 3
  | .uint16 | .int16 => 4
  | .uint32 | .int32 => 5
  | _ => 6

/-- Modelled from the spec: the slot offset the external compiler assigns
to one field, in units of the field's own size. -/
def layoutField (st : LayoutState) (ty : CapnpTy) : Nat × LayoutState :=
  if isPointerType ty then
    (st.pointerCount, { st with pointerCount := st.pointerCount + 1 })
  else
    match ty with
    | .void => (0, st)
    | _ => addData st (lgSizeData ty)

/-- Modelled from the spec: slot offsets for all fields in code order,
together with the final data word count and pointer count. -/
def layoutFields (tys : List CapnpTy) : List Nat × LayoutState :=
  tys.foldl
    (fun acc ty =>
      let (off, st) := layoutField acc.2 ty
      (acc.1 ++ [off], st))
    ([], ⟨0, 0, [0, 0, 0, 0, 0, 0]⟩)

/-- The struct node the engine reads back from the external schema
compiler: data word count, pointer count, and each field's Cap'n Proto type
and slot offset, in code order. -/
structure StructInfo where
  dataWordCount : Nat
  pointerCount : Nat
  fields : List (CapnpTy × Nat)
deriving DecidableEq

/-- The emitted Cap'n Proto types of a field list, `none` as soon as one
field has no Cap'n Proto image. -/
def emitFieldTypes : List (String × HWType) → Option (List CapnpTy)
  | [] => some []
  | f :: rest =>
    match emitCapnpType f.2, emitFieldTypes rest with
    | some c, some cs => some (c :: cs)
    | _, _ => none

/-- Model of `TypeSchemaImpl::getTypeSchema` (`Schema.cpp`, lines 239-250):
derive the flattened field list, emit each field's Cap'n Proto type and ask
the (spec-modelled) layout for the struct node.  `none` models the
assertion paths for unsupported types. -/
def getTypeSchema (t : HWType) : Option StructInfo :=
  match emitFieldTypes (fieldTypes t) with
  | none => none
  | some ctys =>
    let (offs, st) := layoutFields ctys
    some ⟨st.dataWordCount, st.pointerCount, ctys.zip offs⟩

/-- Model of the static `size(rtl::ArrayType, Field::Reader)` helper
(`Schema.cpp`, lines 303-311): the 64-bit words occupied by a list payload,
`divideCeil(arraySize * elementBits, 64)`. -/
def listSizeWords (arraySize : Nat) (cElem : CapnpTy) : Nat :=
  (arraySize * bits cElem + 63) / 64

/-- The size of the object a field's pointer points to, in words: `0` for
integer (data-section) fields, the list payload size for array fields
(`Schema.cpp`, lines 326-333).  `none` models the unmatched `TypeSwitch`. -/
def pointedToSizeWords (mField : HWType) (cty : CapnpTy) : Option Nat :=
  match mField, cty with
  | .int _ _, _ => some 0
  | .array _ n, .list e => some (listSizeWords n e)
  | _, _ => none

/-- Pointed-to sizes of all fields (`Schema.cpp`, lines 320-334), `none`
as soon as one field's `TypeSwitch` matches no case. -/
def pointedToSizes : List ((CapnpTy × Nat) × (String × HWType)) → Option (List Nat)
  | [] => some []
  | p :: rest =>
    match pointedToSizeWords p.2.2 p.1.1, pointedToSizes rest with
    | some s, some ss => some (s :: ss)
    | _, _ => none

/-- Model of the static `size(Node::Struct::Reader, ArrayRef<FieldInfo>)`
helper (`Schema.cpp`, lines 313-336): one header word, the data and pointer
sections, and every pointed-to list payload. -/
def structSizeWords (info : StructInfo) (mFields : List (String × HWType)) : Option Nat :=
  match pointedToSizes (info.fields.zip mFields) with
  | none => none
  | some sizes => some (1 + info.dataWordCount + info.pointerCount + sizes.sum)

/-- Model of `TypeSchemaImpl::size` (`Schema.cpp`, lines 338-343): the
expected Cap'n Proto message size in bits, 64 times the word count. -/
def TypeSchemaImpl.size (t : HWType) : Option Nat :=
  (getTypeSchema t).bind fun info =>
    (structSizeWords info (fieldTypes t)).map fun words => words * 64

/-! ### Bit vectors

Circuit values are modelled by `List Bool`, least-significant-bit first;
in a message, list index = bit offset into the Cap'n Proto segment. -/

/-- The `w`-bit two's-complement image of `n`, least-significant bit first
(the bits of `rtl.constant` of width `w`, as laid down by
`castBitArray`). -/
def natBits (w n : Nat) : List Bool :=
  (List.range w).map fun i => n.testBit i

/-- Read a least-significant-bit-first bit list back as a number (the
value carried by a `BitcastOp` from `!rtl.array<N x i1>` to `iN`). -/
def bitsToNat (bs : List Bool) : Nat :=
  bs.foldr (fun b acc => 2 * acc + (if b then 1 else 0)) 0

theorem natBits_length (w n : Nat) : (natBits w n).length = w := by
  simp [natBits]

/-! ### The segment memory model

`CapnpSegmentBuilder` keeps an `llvm::IntervalMap` from inclusive bit
intervals to circuit values.  It is modelled by a list of
`(start, bits)` entries kept sorted by start offset (the order the
interval map iterates in). -/

/-- The segment memory: entries `(start, value bits)`, sorted by start. -/
abbrev SegMap : Type := List (Nat × List Bool)

/-- Model of `segmentValues.overlaps(lo, hi)` for the inclusive interval
`[lo, hi]`: some stored entry intersects it. -/
def overlaps (m : SegMap) (lo hi : Nat) : Bool :=
  m.any fun e => decide (lo ≤ e.1 + e.2.length - 1) && decide (e.1 ≤ hi)

/-- Insert an entry keeping the list sorted by start offset. -/
def insertSorted (e : Nat × List Bool) : SegMap → SegMap
  | [] => [e]
  | f :: rest => if e.1 ≤ f.1 then e :: f :: rest else f :: insertSorted e rest

/-- Model of `CapnpSegmentBuilder::insert` (`Schema.cpp`, lines 801-807):
place `val` at bit offset `off`.  `none` models the assertion failures: the
new inclusive interval `[off, off + |val| - 1]` must not overlap any stored
entry and must end below `expectedSize`; on success the map gains the entry
and nothing else changes. -/
def SegMap.insert (expectedSize : Nat) (off : Nat) (val : List Bool) (m : SegMap) :
    Option SegMap :=
  if overlaps m off (off + val.length - 1) then none
  else if off + val.length - 1 < expectedSize then some (insertSorted (off, val) m)
  else none

/-- The walk inside `CapnpSegmentBuilder::compile` (`Schema.cpp`, lines
894-915): concatenate the entries in ascending-offset order, zero-padding
the gap before each entry and the tail up to `expectedSize`. -/
def compileFrom (expectedSize lastStop : Nat) : SegMap → List Bool
  | [] => List.replicate (expectedSize - lastStop) false
  | e :: rest =>
    List.replicate (e.1 - lastStop) false ++ e.2 ++
      compileFrom expectedSize (e.1 + e.2.length) rest

/-- Model of `CapnpSegmentBuilder::compile`. -/
def SegMap.compile (expectedSize : Nat) (m : SegMap) : List Bool :=
  compileFrom expectedSize 0 m

/-! ### Hardware values -/

/-- Values of the hardware types: integers carry their bit width and
numeric value, arrays and structs their members. -/
inductive HWValue where
  | int (width : Nat) (val : Nat)
  | array (elems : List HWValue)
  | strct (fields : List HWValue)

mutual

/-- Structural equality test on hardware values. -/
def HWValue.beq : HWValue → HWValue → Bool
  | .int w v, .int w2 v2 => w == w2 && v == v2
  | .array es, .array fs => HWValue.beqList es fs
  | .strct es, .strct fs => HWValue.beqList es fs
  | _, _ => false

/-- Structural equality test on hardware value lists. -/
def HWValue.beqList : List HWValue → List HWValue → Bool
  | [], [] => true
  | v :: r, u :: s => HWValue.beq v u && HWValue.beqList r s
  | _, _ => false

end

mutual

theorem HWValue.beqVal_iff : ∀ a b : HWValue, HWValue.beq a b = true ↔ a = b
  | .int w v, b => by
    cases b <;> simp [HWValue.beq]
  | .array es, b => by
    cases b <;> simp [HWValue.beq, HWValue.beqList_iff es]
  | .strct es, b => by
    cases b <;> simp [HWValue.beq, HWValue.beqList_iff es]

theorem HWValue.beqList_iff :
    ∀ es fs : List HWValue, HWValue.beqList es fs = true ↔ es = fs
  | [], fs => by
    cases fs <;> simp [HWValue.beqList]
  | v :: r, fs => by
    cases fs with
    | nil => simp [HWValue.beqList]
    | cons u s => simp [HWValue.beqList, HWValue.beqVal_iff v, HWValue.beqList_iff r]

end

instance : DecidableEq HWValue :=
  fun a b => decidable_of_iff (HWValue.beq a b = true) (HWValue.beqVal_iff a b)

mutual

/-- The packed bit image of a hardware value (`castBitArray`): integers
least-significant-bit first, aggregates member 0 at the lowest offsets. -/
def HWValue.bitsOf : HWValue → List Bool
  | .int w v => natBits w v
  | .array es => HWValue.bitsOfList es
  | .strct fs => HWValue.bitsOfList fs

/-- Concatenated bit images of a member list, member 0 first. -/
def HWValue.bitsOfList : List HWValue → List Bool
  | [] => []
  | v :: rest => HWValue.bitsOf v ++ HWValue.bitsOfList rest

end

/-! ### The encoder

`CapnpSegmentBuilder` and `TypeSchemaImpl::buildEncoder` (`Schema.cpp`,
lines 768-981), as the function from an input hardware value to the bits of
the `encoded` output port. -/

/-- The running state of one `CapnpSegmentBuilder`. -/
structure SegBuilder where
  expectedSize : Nat
  messageSize : Nat
  segmentValues : SegMap

/-- Model of `CapnpSegmentBuilder::alloc`: bump-allocate `bitsN` more bits,
returning the offset of the new region. -/
def SegBuilder.alloc (s : SegBuilder) (bitsN : Nat) : Nat × SegBuilder :=
  (s.messageSize, { s with messageSize := s.messageSize + bitsN })

/-- `insert` lifted to the builder state. -/
def SegBuilder.insert (s : SegBuilder) (off : Nat) (val : List Bool) :
    Option SegBuilder :=
  match SegMap.insert s.expectedSize off val s.segmentValues with
  | none => none
  | some m => some { s with segmentValues := m }

mutual

/-- Model of `CapnpSegmentBuilder::encodeFieldAt` together with
`CapnpSegmentBuilder::buildList` (`Schema.cpp`, lines 830-857): integers
are inserted directly; for an array, `buildList` allocates
`elementBits * length` bits out of line and places the elements, and the
field then gets a list pointer `[tag=1][rel offset][element-size
code][length]` whose relative offset is `(listOffset - offset - 64) / 64`
words.  A struct value matches no `TypeSwitch` case and leaves the builder
unchanged. -/
def encodeFieldAt (cty : CapnpTy) (off : Nat) (v : HWValue) (s : SegBuilder) :
    Option SegBuilder :=
  match v with
  | .int w n => s.insert off (natBits w n)
  | .strct _ => some s
  | .array es =>
    match cty with
    | .list elemTy =>
      let ew := bits elemTy
      let (listOff, s1) := s.alloc (ew * es.length)
      match encodeElems elemTy listOff ew es s1 with
      | none => none
      | some s2 =>
        let rel := (listOff - off - 64) / 64
        s2.insert off
          (natBits 2 1 ++ natBits 30 rel ++ natBits 3 (bitsEncoding elemTy) ++
           natBits 29 es.length)
    | _ => none

/-- The element loop of `buildList` (`Schema.cpp`, lines 852-856): element
`i` of the array goes to slot `total - i - 1`, i.e. each element is placed
`(number of elements after it) * elementBits` past the payload start. -/
def encodeElems (elemTy : CapnpTy) (listOff ew : Nat) :
    List HWValue → SegBuilder → Option SegBuilder
  | [], s => some s
  | v :: rest, s =>
    match encodeFieldAt elemTy (listOff + rest.length * ew) v s with
    | none => none
    | some s1 => encodeElems elemTy listOff ew rest s1

end

/-- The field loop of `CapnpSegmentBuilder::encodeStructAt` (`Schema.cpp`,
lines 878-889): each field goes at its slot offset inside the data section
(ground fields) or the pointer section (list fields). -/
def encodeFields (dataOff ptrOff : Nat) (fieldVals : List HWValue) :
    List (CapnpTy × Nat) → Nat → SegBuilder → Option SegBuilder
  | [], _, s => some s
  | (cty, slot) :: rest, idx, s =>
    match fieldVals.get? idx with
    | none => none
    | some v =>
      let fOff := (if isPointerType cty then ptrOff else dataOff) + slot * bits cty
      match encodeFieldAt cty fOff v s with
      | none => none
      | some s1 => encodeFields dataOff ptrOff fieldVals rest (idx + 1) s1

/-- Model of `CapnpSegmentBuilder::encodeStructAt` (`Schema.cpp`, lines
859-892): allocate the data and pointer sections, place every field, and
return the struct pointer word
`[tag=0][rel data offset][data words][pointer count]`. -/
def encodeStructAt (ptrLoc : Nat) (info : StructInfo) (fieldVals : List HWValue)
    (s : SegBuilder) : Option (List Bool × SegBuilder) :=
  let structSize := (info.dataWordCount + info.pointerCount) * 64
  let (dataOff, s1) := s.alloc structSize
  let ptrOff := dataOff + info.dataWordCount * 64
  let rel := (dataOff - ptrLoc) / 64 - 1
  let structPtr := natBits 2 0 ++ natBits 30 rel ++
    natBits 16 info.dataWordCount ++ natBits 16 info.pointerCount
  match encodeFields dataOff ptrOff fieldVals info.fields 0 s1 with
  | none => none
  | some s2 => some (structPtr, s2)

/-- Model of `CapnpSegmentBuilder::build` (`Schema.cpp`, lines 917-925):
allocate the root pointer word, encode the struct, store the root pointer
and compile the segment. -/
def segBuild (expectedSize : Nat) (info : StructInfo) (fieldVals : List HWValue) :
    Option (List Bool) :=
  let s0 : SegBuilder := ⟨expectedSize, 0, []⟩
  let (rootLoc, s1) := s0.alloc 64
  match encodeStructAt rootLoc info fieldVals s1 with
  | none => none
  | some (rootPtr, s2) =>
    match s2.insert rootLoc rootPtr with
    | none => none
    | some s3 => some (SegMap.compile expectedSize s3.segmentValues)

/-- The flattened field values of the encoder input (`Schema.cpp`, lines
964-974): a struct is split with one `StructExtractOp` per element, any
other value is passed whole. -/
def encoderFieldValues (t : HWType) (v : HWValue) : Option (List HWValue) :=
  match getCanonicalType t, v with
  | .strct _, .strct vs => some vs
  | .strct _, _ => none
  | _, _ => some [v]

/-- Model of `TypeSchemaImpl::buildEncoder` (`Schema.cpp`, lines 929-981)
as the value function of the generated module: the bits of the `encoded`
output for a given input value. -/
def TypeSchemaImpl.buildEncoder (t : HWType) (v : HWValue) : Option (List Bool) :=
  match getTypeSchema t, TypeSchemaImpl.size t with
  | some info, some sz =>
    match encoderFieldValues t v with
    | none => none
    | some fieldVals => segBuild sz info fieldVals
  | _, _ => none

/-- The type of the `encoded` output port of the generated encoder module
(`Schema.cpp`, lines 946-949): `!rtl.array<size() x i1>`. -/
def encoderOutputPortType (t : HWType) : Option HWType :=
  match TypeSchemaImpl.size t with
  | none => none
  | some sz => some (.array (.int .signless 1) sz)

/-! ### The decoder

`TypeSchemaImpl::buildDecoder` (`Schema.cpp`, lines 990-1203) emits, inside
an `sv.always` block at the positive clock edge and under `sv.if valid`, a
list of `sv.assert` checks comparing static slices of the input message
against expected constants, and combinationally reassembles the decoded
value.  The module is modelled by the assertion list (each assertion is a
static slice, a predicate and the expected constant) plus the decode
function. -/

/-- The `comb::ICmpPredicate`s used by `AssertBuilder`. -/
inductive CmpPred where
  | eq
  | ule
deriving DecidableEq

/-- One emitted hardware assertion: compare the `width`-bit slice of the
message at bit offset `lo` against `expected` (truncated to `width` bits,
as `rtl.constant` of the compared type does). -/
structure HWAssert where
  lo : Nat
  width : Nat
  pred : CmpPred
  expected : Nat
deriving DecidableEq

/-- The number read from a `width`-bit slice of the message at `lo`. -/
def sliceVal (msg : List Bool) (lo w : Nat) : Nat :=
  bitsToNat ((List.range w).map fun k => msg.getD (lo + k) false)

/-- Whether one emitted assertion passes on a given message. -/
def assertHolds (msg : List Bool) (a : HWAssert) : Bool :=
  let v := sliceVal msg a.lo a.width
  let e := a.expected % 2 ^ a.width
  match a.pred with
  | .eq => v == e
  | .ule => v ≤ e

/-- Model of `llvm::Log2_64_Ceil`: the smallest `k` with `n ≤ 2 ^ k`
(and 64 for `n = 0`, matching the wrap-around in LLVM's bit twiddling). -/
def log2Ceil (n : Nat) : Nat :=
  if n = 0 then 64
  else (((List.range 64).find? fun k => n ≤ 2 ^ k).getD 64)

/-- The element-size code the decoder expects for a list of elements of
the given bit width (`Schema.cpp`, lines 1017-1040); `none` models the
`assert(false)` default. -/
def expectedElemSizeField : Nat → Option Nat
  | 0 => some 0
  | 1 => some 1
  | 8 => some 2
  | 16 => some 3
  | 32 => some 4
  | 64 => some 5
  | _ => none

/-- Model of `decodeList` (`Schema.cpp`, lines 993-1077) for an array
whose hardware element type is an integer of signedness `sg` and width `w`:
the three list-pointer assertions, and the decoded array.  The payload is
read at `offsetField + ptrOffsetFromRoot + 64` (the 30-bit add the source
builds), then split into Cap'n Proto elements; if the Cap'n Proto element
type equals the hardware element type the bitcast array is returned as is,
otherwise each element is down-cast to `w` bits and the array is rebuilt
with `rtl.array_create`, whose operand list is reversed relative to
element order. -/
def decodeListModel (msgSz dwc : Nat) (sg : Sg) (w n : Nat) (elemTy : CapnpTy)
    (slot : Nat) : Option (List HWAssert × (List Bool → HWValue)) :=
  let ew := bits elemTy
  match expectedElemSizeField ew with
  | none => none
  | some code =>
    let expIdx := log2Ceil msgSz
    if 30 < expIdx then none
    else
      let ptrLo := 64 + dwc * 64 + slot * 64
      let asserts : List HWAssert :=
        [⟨ptrLo, 2, .eq, 1⟩, ⟨ptrLo + 32, 3, .eq, code⟩, ⟨ptrLo + 35, 29, .ule, n⟩]
      let valFn := fun msg =>
        let offsetField := sliceVal msg (ptrLo + 2) 30
        let idxRaw := (offsetField + (ptrLo + 64) % 2 ^ 30) % 2 ^ 30
        let idx := idxRaw % 2 ^ expIdx
        let groups := (List.range n).map fun j =>
          (List.range ew).map fun k => msg.getD (idx + j * ew + k) false
        if sg = .signless ∧ w = ew then
          HWValue.array (groups.map fun g => HWValue.int w (bitsToNat g))
        else
          HWValue.array ((groups.map fun g => HWValue.int w (bitsToNat (g.take w))).reverse)
      some (asserts, valFn)

/-- Model of `decodeField` (`Schema.cpp`, lines 1080-1097): ground fields
are a slice of the data section at `slotOffset * fieldBits`, arrays go
through `decodeList`; `none` models the unmatched `TypeSwitch` and assertion
paths. -/
def decodeFieldModel (msgSz dwc : Nat) (hwTy : HWType) (cty : CapnpTy)
    (slot : Nat) : Option (List HWAssert × (List Bool → HWValue)) :=
  match hwTy with
  | .int _ w => some ([], fun msg => .int w (sliceVal msg (64 + slot * bits cty) w))
  | .array (.int sg w) n =>
    match cty with
    | .list elemTy => decodeListModel msgSz dwc sg w n elemTy slot
    | _ => none
  | _ => none

/-- The field loop of `buildDecoder` (`Schema.cpp`, lines 1177-1184):
decode every field in code order, collecting assertions and values. -/
def decodeFieldsModel (msgSz dwc : Nat) :
    List ((CapnpTy × Nat) × (String × HWType)) →
    Option (List HWAssert × List (List Bool → HWValue))
  | [] => some ([], [])
  | (cf, mf) :: rest =>
    match decodeFieldModel msgSz dwc mf.2 cf.1 cf.2 with
    | none => none
    | some (as1, f) =>
      match decodeFieldsModel msgSz dwc rest with
      | none => none
      | some (as2, fs) => some (as1 ++ as2, f :: fs)

/-- The `sv::EventControl` values of an `sv.always` block. -/
inductive EventControl where
  | atPosEdge
  | atNegEdge
  | atEdge
deriving DecidableEq

/-- The generated decoder module: the event of its `sv.always` block, the
assertions emitted inside it (checked only when `valid` is set), and the
combinational decode function. -/
structure DecoderModule where
  edge : EventControl
  asserts : List HWAssert
  dec : List Bool → Option HWValue

/-- Whether the decoder's assertion layer accepts: when `valid` is false
nothing is checked (the asserts sit under `sv.if valid`); when `valid` is
true every emitted assertion must pass. -/
def decoderAccepts (m : DecoderModule) (valid : Bool) (msg : List Bool) : Bool :=
  !valid || m.asserts.all (assertHolds msg)

/-- Model of `TypeSchemaImpl::buildDecoder` (`Schema.cpp`, lines
1101-1203): the root-pointer assertions (all 32 low bits zero, data word
count, pointer count), the per-field assertions in code order, and the
decoded output (struct outer types are rebuilt from all field values, other
outer types pass field value 0 through). -/
def TypeSchemaImpl.buildDecoder (t : HWType) : Option DecoderModule :=
  match getTypeSchema t, TypeSchemaImpl.size t with
  | some info, some sz =>
    match decodeFieldsModel sz info.dataWordCount (info.fields.zip (fieldTypes t)) with
    | none => none
    | some (fieldAsserts, valFns) =>
      let asserts : List HWAssert :=
        ⟨0, 32, .eq, 0⟩ :: ⟨32, 16, .eq, info.dataWordCount⟩ ::
          ⟨48, 16, .eq, info.pointerCount⟩ :: fieldAsserts
      let dec := fun msg =>
        let vals := valFns.map fun f => f msg
        match getCanonicalType t with
        | .strct _ => some (HWValue.strct vals)
        | _ => vals.get? 0
      some ⟨.atPosEdge, asserts, dec⟩
  | _, _ => none

/-! ### Driving encoder into decoder

The round-trip scenario of the spec: feed a value through the generated
encoder and the resulting bits, uncorrupted, through the generated decoder
with `valid` asserted. -/

/-- Encode `v`, then decode the uncorrupted bits.  `some w` means every
hardware assertion of the decoder passed and the decoded output is `w`. -/
def roundTrip (t : HWType) (v : HWValue) : Option HWValue :=
  (TypeSchemaImpl.buildEncoder t v).bind fun enc =>
    (TypeSchemaImpl.buildDecoder t).bind fun m =>
      if decoderAccepts m true enc then m.dec enc else none

/-! ### The module cache

`TypeSchema::buildEncoder` / `TypeSchema::buildDecoder` (`Schema.cpp`,
lines 1209-1283) keep one `SmallDenseMap<Type, RTLModuleOp>` each
(`encImplMods`, `decImplMods`); a request looks its type up, builds and
caches the implementation module on a miss, and instantiates the cached
module on a hit.  Generated modules are modelled by identifiers handed out
by a fresh-name counter. -/

/-- The module cache: implementation modules built so far (keyed by the
exact hardware type) and the next fresh module identifier. -/
structure CacheState where
  entries : List (HWType × Nat)
  nextId : Nat

/-- Look a type up in the cache (`encImplMods.find(getType())`). -/
def lookupModule (t : HWType) : List (HWType × Nat) → Option Nat
  | [] => none
  | (u, m) :: rest => if u = t then some m else lookupModule t rest

/-- One cache-mediated request: on a hit return the cached module, on a
miss build a fresh module, cache it and return it.  The returned module is
the one the emitted `rtl.instance` references. -/
def requestModule (t : HWType) (st : CacheState) : Nat × CacheState :=
  match lookupModule t st.entries with
  | some m => (m, st)
  | none => (st.nextId, ⟨(t, st.nextId) :: st.entries, st.nextId + 1⟩)

/-- Model of `TypeSchema::buildEncoder` (`Schema.cpp`, lines 1239-1260),
acting on the `encImplMods` cache. -/
def TypeSchema.buildEncoder (t : HWType) (st : CacheState) : Nat × CacheState :=
  requestModule t st

/-- Model of `TypeSchema::buildDecoder` (`Schema.cpp`, lines 1262-1283),
acting on the `decImplMods` cache. -/
def TypeSchema.buildDecoder (t : HWType) (st : CacheState) : Nat × CacheState :=
  requestModule t st

/-- A whole compilation's worth of build requests, in order. -/
def processRequests (l : List HWType) (st : CacheState) : CacheState :=
  l.foldl (fun s t => (requestModule t s).2) st

/-- Cache sanity: every cached module identifier is below the fresh
counter, and distinct entries have distinct types and distinct modules. -/
def CacheState.wf (st : CacheState) : Prop :=
  (∀ e ∈ st.entries, e.2 < st.nextId) ∧
    st.entries.Pairwise fun a b => a.1 ≠ b.1 ∧ a.2 ≠ b.2

/-! ### Repeated insertion into the segment model -/

/-- Insert a batch of fragments one after the other, failing as soon as
one insertion fails. -/
def insertAll (es : Nat) : List (Nat × List Bool) → SegMap → Option SegMap
  | [], m => some m
  | e :: rest, m =>
    match SegMap.insert es e.1 e.2 m with
    | none => none
    | some m1 => insertAll es rest m1

/-- Ordered separation of segment entries: `a` ends at or before the start
of `b`. -/
def entsep (a b : Nat × List Bool) : Prop := a.1 + a.2.length ≤ b.1

/-- Invariant of the segment memory model: every stored interval is
nonempty and ends within the declared expected size, and the entries are
ordered and pairwise disjoint. -/
def SegMap.wf (es : Nat) (m : SegMap) : Prop :=
  (∀ e ∈ m, 0 < e.2.length ∧ e.1 + e.2.length ≤ es) ∧ m.Pairwise entsep

/-! ### The spec's description of supportedness (for comparison with the
source's `isSupported`) -/

/-- The spec's phrase for a supported element type: after alias
resolution, an integer of width at most 64, or a fixed-size array of a
supported element type; structs are not supported below the outer level. -/
def specSupportedElem : HWType → Bool
  | .typeAlias _ inner => specSupportedElem inner
  | .int _ w => w ≤ 64
  | .array e _ => specSupportedElem e
  | .strct _ => false

/-- The spec's supportedness for a whole type: after alias resolution, an
integer of width at most 64, a fixed-size array whose element type is
supported, or an outer-level struct all of whose element types are
supported. -/
def specSupported (t : HWType) : Bool :=
  match getCanonicalType t with
  | .int _ w => w ≤ 64
  | .array e _ => specSupportedElem e
  | .strct fs => fs.all fun f => specSupportedElem f.2
  | .typeAlias _ _ => false

/-! ### Concrete instances used to evaluate the model

The two-array struct below is the failing input for the round-trip
property: its first array field's list pointer carries a relative offset of
1 word, and the decoder adds that word offset to a bit offset. -/

/-- A placeholder decoder module, used only as a `getD` default. -/
def emptyDecoder : DecoderModule := ⟨.atPosEdge, [], fun _ => none⟩

/-- The round-trip failing input type: a struct with two one-element byte
arrays. -/
def c1T : HWType :=
  .strct [("a", .array (.int .signless 8) 1), ("b", .array (.int .signless 8) 1)]

/-- The failing input value: `a = [5]`, `b = [0]`. -/
def c1v : HWValue := .strct [.array [.int 8 5], .array [.int 8 0]]

/-- What the generated decoder actually returns for the encoded `c1v`:
`a = [0]`, `b = [5]`. -/
def c1w : HWValue := .strct [.array [.int 8 0], .array [.int 8 5]]

/-- The encoder output for `c1v`. -/
def c1enc : List Bool := (TypeSchemaImpl.buildEncoder c1T c1v).getD []

/-- The generated decoder for `c1T`. -/
def c1mod : DecoderModule := (TypeSchemaImpl.buildDecoder c1T).getD emptyDecoder

/-- A struct with a ground field and a list field, for exercising the
decoder's assertion layer. -/
def c8t : HWType :=
  .strct [("x", .int .signless 3), ("l", .array (.int .signless 16) 2)]

/-- The struct node the layout model computes for `c8t`. -/
def c8info : StructInfo := ⟨1, 1, [(.uint8, 0), (.list .uint16, 0)]⟩

/-- The generated decoder for `c8t`. -/
def c8mod : DecoderModule := (TypeSchemaImpl.buildDecoder c8t).getD emptyDecoder

/-- A well-formed wire message for `c8t`: the encoder's output for a
concrete value. -/
def c8msg : List Bool :=
  (TypeSchemaImpl.buildEncoder c8t
    (.strct [.int 3 5, .array [.int 16 10, .int 16 20]])).getD []

/-- The generated decoder for `i8`. -/
def c10mod : DecoderModule :=
  (TypeSchemaImpl.buildDecoder (.int .signless 8)).getD emptyDecoder

/-- A 128-bit wire message whose root pointer has the correct struct tag
(0), data word count (1) and pointer count (0) but a non-zero offset
field (4). -/
def c10msg : List Bool := natBits 128 ((4 <<< 2) + (1 <<< 32))

/-! ## Theorems -/

theorem isSome_eq_some_getD {α : Type} (o : Option α) (d : α)
    (h : o.isSome = true) : o = some (o.getD d) := by
  cases o
  · cases h
  · rfl

/-! ### Supportedness (claim C4) -/

theorem allFieldsSupported_eq (fs : List (String × HWType)) :
    allFieldsSupported fs = fs.all fun f => isSupported f.2 false := by
  induction fs with
  | nil => rfl
  | cons f rest ih => cases f; simp [allFieldsSupported, ih]

theorem isSupported_false_eq : ∀ t : HWType, isSupported t false = specSupportedElem t
  | .int sg w => rfl
  | .array e n => by
    simpa [isSupported, specSupportedElem] using isSupported_false_eq e
  | .strct fs => by simp [isSupported, specSupportedElem]
  | .typeAlias n inner => by
    simpa [isSupported, specSupportedElem] using isSupported_false_eq inner

theorem specSupportedElem_canonical :
    ∀ t : HWType, specSupportedElem (getCanonicalType t) = specSupportedElem t
  | .int sg w => rfl
  | .array e n => rfl
  | .strct fs => rfl
  | .typeAlias n inner => by
    simpa [getCanonicalType, specSupportedElem] using specSupportedElem_canonical inner

theorem isSupported_true_eq : ∀ t : HWType, isSupported t true = specSupported t
  | .int sg w => rfl
  | .array e n => by
    simp [isSupported, specSupported, getCanonicalType, isSupported_false_eq]
  | .strct fs => by
    simp only [isSupported, specSupported, getCanonicalType, allFieldsSupported_eq,
      Bool.true_and]
    congr 1
    funext f
    exact isSupported_false_eq f.2
  | .typeAlias n inner => by
    simpa [isSupported, specSupported, getCanonicalType] using isSupported_true_eq inner

theorem emitCapnpType_int_wide (sg : Sg) (w : Nat) (h : 64 < w) :
    emitCapnpType (.int sg w) = none := by
  have h0 : ¬ w = 0 := by omega
  have h1 : ¬ w = 1 := by omega
  have h8 : ¬ w ≤ 8 := by omega
  have h16 : ¬ w ≤ 16 := by omega
  have h32 : ¬ w ≤ 32 := by omega
  have h64 : ¬ w ≤ 64 := by omega
  simp [emitCapnpType, h0, h1, h8, h16, h32, h64]

theorem emitCapnpType_of_canonical_strct :
    ∀ t : HWType, ∀ gs : List (String × HWType),
      getCanonicalType t = .strct gs → emitCapnpType t = none
  | .int sg w, gs, h => by simp [getCanonicalType] at h
  | .array e n, gs, h => by simp [getCanonicalType] at h
  | .strct fs, gs, h => rfl
  | .typeAlias n inner, gs, h => by
    simp only [getCanonicalType] at h
    simpa [emitCapnpType] using emitCapnpType_of_canonical_strct inner gs h

theorem emitFieldTypes_eq_none_of_mem (f : String × HWType) :
    ∀ l : List (String × HWType), f ∈ l → emitCapnpType f.2 = none →
      emitFieldTypes l = none := by
  intro l
  induction l with
  | nil => intro hx; simp at hx
  | cons a rest ih =>
    intro hx hgx
    rcases List.mem_cons.mp hx with hx | hx
    · subst hx
      simp [emitFieldTypes, hgx]
    · cases hga : emitCapnpType a.2 <;>
        simp [emitFieldTypes, hga, ih hx hgx]

/-- Claim C4: `isSupported` holds exactly for the types the spec lists —
after alias resolution: integers of width at most 64, fixed-size arrays of
supported element types, and outer-level structs all of whose element
types are supported.  In particular an integer wider than 64 bits, and a
struct one of whose fields resolves to a struct, are unsupported, and in
both cases no Cap'n Proto schema node is derived (`getTypeSchema` fails on
the unmapped field type rather than emitting a schema). -/
theorem c4_isSupported_characterization (t : HWType) (sg : Sg) (w : Nat)
    (fs gs : List (String × HWType)) (f : String × HWType) :
    (TypeSchemaImpl.isSupported t = specSupported t) ∧
    (64 < w → TypeSchemaImpl.isSupported (.int sg w) = false ∧
        getTypeSchema (.int sg w) = none) ∧
    (f ∈ fs → getCanonicalType f.2 = .strct gs →
        TypeSchemaImpl.isSupported (.strct fs) = false ∧
        getTypeSchema (.strct fs) = none) := by
  refine ⟨isSupported_true_eq t, fun hw => ⟨?_, ?_⟩, fun hf hcanon => ⟨?_, ?_⟩⟩
  · simp only [TypeSchemaImpl.isSupported, isSupported, decide_eq_false_iff_not]
    omega
  · have h1 : emitCapnpType (HWType.int sg w) = none := emitCapnpType_int_wide sg w hw
    have h2 : ("i", HWType.int sg w) ∈ fieldTypes (.int sg w) := by
      simp [fieldTypes, getCanonicalType]
    simp [getTypeSchema,
      emitFieldTypes_eq_none_of_mem _ (fieldTypes (.int sg w)) h2 h1]
  · have h1 : isSupported f.2 false = false := by
      rw [isSupported_false_eq, ← specSupportedElem_canonical, hcanon]
      rfl
    have h2 : allFieldsSupported fs = false := by
      rw [allFieldsSupported_eq]
      exact List.all_eq_false.mpr ⟨f, hf, by simp [h1]⟩
    simp [TypeSchemaImpl.isSupported, isSupported, h2]
  · have h1 : emitCapnpType f.2 = none := emitCapnpType_of_canonical_strct f.2 gs hcanon
    have h2 : f ∈ fieldTypes (.strct fs) := by simpa [fieldTypes, getCanonicalType] using hf
    simp [getTypeSchema,
      emitFieldTypes_eq_none_of_mem _ (fieldTypes (.strct fs)) h2 h1]

/-- Witness for C4 at concrete inputs: `i65` and a struct with a
struct-typed field are unsupported and produce no schema node. -/
theorem c4_witness :
    (TypeSchemaImpl.isSupported (.int .signless 32) =
        specSupported (.int .signless 32)) ∧
    (64 < 65 → TypeSchemaImpl.isSupported (.int .signless 65) = false ∧
        getTypeSchema (.int .signless 65) = none) ∧
    (("x", HWType.strct []) ∈ [("x", HWType.strct [])] →
        getCanonicalType (HWType.strct []) = HWType.strct [] →
        TypeSchemaImpl.isSupported (.strct [("x", HWType.strct [])]) = false ∧
        getTypeSchema (.strct [("x", HWType.strct [])]) = none) :=
  c4_isSupported_characterization (.int .signless 32) .signless 65
    [("x", HWType.strct [])] [] ("x", HWType.strct [])

/-! ### The type identifier (claim C3) -/

/-- Claim C3: `capnpTypeID` is a pure function of the type's textual form
— equal texts give equal identifiers, within or across runs, since the
hash is a fixed deterministic function — and the returned identifier
always has bit 63 forced to 1. -/
theorem c3_capnpTypeID_deterministic (t1 t2 : HWType)
    (h : typeText t1 = typeText t2) :
    capnpTypeID t1 = capnpTypeID t2 ∧ Nat.testBit (capnpTypeID t1) 63 = true := by
  constructor
  · simp only [capnpTypeID, paddedTypeName, strBytes, h]
  · simp only [capnpTypeID, Nat.testBit_or, Bool.or_eq_true]
    exact Or.inr (by decide)

/-- Witness for C3 at `i8`. -/
theorem c3_witness :
    capnpTypeID (.int .signless 8) = capnpTypeID (.int .signless 8) ∧
    Nat.testBit (capnpTypeID (.int .signless 8)) 63 = true :=
  c3_capnpTypeID_deterministic (.int .signless 8) (.int .signless 8) rfl

/-! ### The `i8` scenario (claim C9) -/

/-- Counterexample to C9 as stated: for the 8-bit integer type the
computed message size is 128 bits (one header word plus one data word),
not 64. -/
theorem c9_counterexample :
    TypeSchemaImpl.size (.int .signless 8) = some 128 ∧ (128 : Nat) ≠ 64 := by
  constructor
  · decide
  · decide

/-- Claim C9 as amended: the derived schema for `i8` has exactly one
field, named `i`, emitted with Cap'n Proto type `UInt8`, and the computed
message size is 128 bits. -/
theorem c9_i8_schema :
    fieldTypes (.int .signless 8) = [("i", .int .signless 8)] ∧
    (fieldTypes (.int .signless 8)).map (fun f => (emitCapnpType f.2).map capnpTyText) =
      [some "UInt8"] ∧
    TypeSchemaImpl.size (.int .signless 8) = some 128 := by
  refine ⟨by decide, ?_, by decide⟩
  decide

/-! ### The encoder output port (claim C2) -/

/-- Claim C2: whenever the engine computes a message size for a type, the
generated encoder module's `encoded` output port is a bit array of exactly
that width, and the width is a multiple of 64. -/
theorem c2_encoder_port_width (t : HWType) (n : Nat)
    (h : TypeSchemaImpl.size t = some n) :
    encoderOutputPortType t = some (.array (.int .signless 1) n) ∧ n % 64 = 0 := by
  constructor
  · simp [encoderOutputPortType, h]
  · unfold TypeSchemaImpl.size at h
    cases hg : getTypeSchema t with
    | none => rw [hg] at h; cases h
    | some info =>
      rw [hg] at h
      simp only [Option.some_bind] at h
      cases hs : structSizeWords info (fieldTypes t) with
      | none => rw [hs] at h; cases h
      | some words =>
        rw [hs] at h
        simp at h
        omega

/-- Witness for C2 at `i8`: size 128, port `!rtl.array<128 x i1>`. -/
theorem c2_witness :
    encoderOutputPortType (.int .signless 8) =
      some (.array (.int .signless 1) 128) ∧ (128 : Nat) % 64 = 0 :=
  c2_encoder_port_width (.int .signless 8) 128 (by decide)

/-! ### The segment memory model (claims C6 and C7) -/

theorem insertSorted_perm (e : Nat × List Bool) :
    ∀ m : SegMap, (insertSorted e m).Perm (e :: m)
  | [] => List.Perm.refl _
  | f :: rest => by
    unfold insertSorted
    split
    · exact List.Perm.refl _
    · exact ((insertSorted_perm e rest).cons f).trans (List.Perm.swap e f rest)

theorem of_overlaps_eq_false (m : SegMap) (lo hi : Nat)
    (h : overlaps m lo hi = false) :
    ∀ e ∈ m, ¬(lo ≤ e.1 + e.2.length - 1 ∧ e.1 ≤ hi) := by
  intro e he hc
  unfold overlaps at h
  rw [List.any_eq_false] at h
  have h2 := h e he
  simp [hc.1, hc.2] at h2

theorem pairwise_insertSorted (x : Nat × List Bool) :
    ∀ m : SegMap, m.Pairwise entsep →
      (∀ e ∈ m, 0 < e.2.length) → 0 < x.2.length →
      (∀ e ∈ m, entsep e x ∨ entsep x e) →
      (insertSorted x m).Pairwise entsep
  | [], _, _, _, _ => by simp [insertSorted, List.Pairwise.nil]
  | f :: rest, hp, hne, hxne, hd => by
    unfold insertSorted
    split
    case isTrue hle =>
      refine List.Pairwise.cons ?_ hp
      intro e he
      rcases List.mem_cons.mp he with rfl | he2
      · rcases hd e (by simp) with hfx | hxf
        · exfalso
          have h1 := hne e (by simp)
          unfold entsep at hfx
          omega
        · exact hxf
      · rcases hd e (List.mem_cons_of_mem f he2) with hex | hxe
        · exfalso
          have h1 := (List.pairwise_cons.mp hp).1 e he2
          have h2 := hne e (List.mem_cons_of_mem f he2)
          unfold entsep at h1 hex
          omega
        · exact hxe
    case isFalse hgt =>
      have hp2 := List.pairwise_cons.mp hp
      refine List.Pairwise.cons ?_
        (pairwise_insertSorted x rest hp2.2
          (fun e he => hne e (List.mem_cons_of_mem f he)) hxne
          (fun e he => hd e (List.mem_cons_of_mem f he)))
      intro e he
      have hmem := (insertSorted_perm x rest).mem_iff.mp he
      rcases List.mem_cons.mp hmem with heq | he2
      · subst heq
        rcases hd f (by simp) with hfx | hxf
        · exact hfx
        · exfalso
          unfold entsep at hxf
          omega
      · exact hp2.1 e he2

theorem insert_eq_some (es off : Nat) (val : List Bool) (m m2 : SegMap)
    (h : SegMap.insert es off val m = some m2) :
    overlaps m off (off + val.length - 1) = false ∧
    off + val.length - 1 < es ∧ m2 = insertSorted (off, val) m := by
  unfold SegMap.insert at h
  split at h
  · cases h
  · split at h
    · refine ⟨by simp_all, by assumption, ?_⟩
      exact (Option.some.injEq _ _).mp h.symm
    · cases h

theorem insert_wf_perm (es off : Nat) (val : List Bool) (m m2 : SegMap)
    (hwf : SegMap.wf es m) (hpos : 0 < val.length)
    (h : SegMap.insert es off val m = some m2) :
    (∀ e ∈ m, e.1 + e.2.length ≤ off ∨ off + val.length ≤ e.1) ∧
    off + val.length ≤ es ∧
    SegMap.wf es m2 ∧
    m2.Perm ((off, val) :: m) := by
  obtain ⟨hov, hbound, hm2⟩ := insert_eq_some es off val m m2 h
  have hdisj : ∀ e ∈ m, e.1 + e.2.length ≤ off ∨ off + val.length ≤ e.1 := by
    intro e he
    have h1 := of_overlaps_eq_false m off (off + val.length - 1) hov e he
    have h2 := (hwf.1 e he).1
    omega
  refine ⟨hdisj, by omega, ⟨?_, ?_⟩, ?_⟩
  · intro e he
    have hmem := ((hm2 ▸ insertSorted_perm (off, val) m).mem_iff).mp he
    rcases List.mem_cons.mp hmem with heq | he2
    · subst heq
      refine ⟨hpos, ?_⟩
      show off + val.length ≤ es
      omega
    · exact hwf.1 e he2
  · rw [hm2]
    refine pairwise_insertSorted (off, val) m hwf.2
      (fun e he => (hwf.1 e he).1) hpos ?_
    intro e he
    rcases hdisj e he with h1 | h1
    · exact Or.inl h1
    · exact Or.inr h1
  · rw [hm2]
    exact insertSorted_perm (off, val) m

/-- Claim C6: a successful `insert(offset, value)` occupies an interval
disjoint from every stored interval and ending within the declared
expected size, the invariant (pairwise-disjoint, in-bounds intervals) is
maintained, and the map gains exactly the new entry; an insertion that
would overlap a stored interval, or end past the expected size, returns
`none` (the assertion fires) instead of modifying the map. -/
theorem c6_insert_invariant (es off : Nat) (val : List Bool) (m m2 : SegMap)
    (hwf : SegMap.wf es m) (hpos : 0 < val.length)
    (h : SegMap.insert es off val m = some m2) :
    (∀ e ∈ m, e.1 + e.2.length ≤ off ∨ off + val.length ≤ e.1) ∧
    off + val.length ≤ es ∧
    SegMap.wf es m2 ∧
    m2.Perm ((off, val) :: m) ∧
    (∀ off2 : Nat, ∀ val2 : List Bool, 0 < val2.length →
      (∃ e ∈ m, ¬(e.1 + e.2.length ≤ off2 ∨ off2 + val2.length ≤ e.1)) →
      SegMap.insert es off2 val2 m = none) ∧
    (∀ off2 : Nat, ∀ val2 : List Bool, es < off2 + val2.length →
      SegMap.insert es off2 val2 m = none) := by
  obtain ⟨hdisj, hb, hwf2, hperm⟩ := insert_wf_perm es off val m m2 hwf hpos h
  refine ⟨hdisj, hb, hwf2, hperm, ?_, ?_⟩
  · intro off2 val2 hpos2 ⟨e, he, hce⟩
    have hov2 : overlaps m off2 (off2 + val2.length - 1) = true := by
      unfold overlaps
      rw [List.any_eq_true]
      refine ⟨e, he, ?_⟩
      have h2 := (hwf.1 e he).1
      simp only [Bool.and_eq_true, decide_eq_true_eq]
      omega
    unfold SegMap.insert
    rw [hov2]
    rfl
  · intro off2 val2 hb2
    unfold SegMap.insert
    split
    · rfl
    · rw [if_neg]
      omega

/-- Witness for C6: inserting the 64-bit interval `[128, 192)` into a map
already holding `[64, 128)` with expected size 320. -/
theorem c6_witness :
    (∀ e ∈ [((64 : Nat), List.replicate 64 false)],
        e.1 + e.2.length ≤ 128 ∨ 128 + (List.replicate 64 true).length ≤ e.1) ∧
    128 + (List.replicate 64 true).length ≤ 320 ∧
    SegMap.wf 320 [(64, List.replicate 64 false), (128, List.replicate 64 true)] ∧
    ([((64 : Nat), List.replicate 64 false), (128, List.replicate 64 true)].Perm
      ((128, List.replicate 64 true) :: [(64, List.replicate 64 false)])) ∧
    (∀ off2 : Nat, ∀ val2 : List Bool, 0 < val2.length →
      (∃ e ∈ [((64 : Nat), List.replicate 64 false)],
        ¬(e.1 + e.2.length ≤ off2 ∨ off2 + val2.length ≤ e.1)) →
      SegMap.insert 320 off2 val2 [(64, List.replicate 64 false)] = none) ∧
    (∀ off2 : Nat, ∀ val2 : List Bool, 320 < off2 + val2.length →
      SegMap.insert 320 off2 val2 [(64, List.replicate 64 false)] = none) :=
  c6_insert_invariant 320 128 (List.replicate 64 true)
    [(64, List.replicate 64 false)]
    [(64, List.replicate 64 false), (128, List.replicate 64 true)]
    ⟨by simp, List.pairwise_singleton _ _⟩
    (by simp)
    (by decide)

theorem getD_replicate_false (n i : Nat) :
    (List.replicate n false).getD i false = false := by
  rcases Nat.lt_or_ge i n with h | h
  · rw [List.getD_eq_getElem _ _ (by simpa using h)]
    simp
  · rw [List.getD_eq_default _ _ (by simpa using h)]

theorem compileFrom_length (es : Nat) :
    ∀ (m : SegMap) (ls : Nat),
      (∀ e ∈ m, e.1 + e.2.length ≤ es) → m.Pairwise entsep →
      (∀ e ∈ m, ls ≤ e.1) →
      (compileFrom es ls m).length = es - ls
  | [], ls, _, _, _ => by simp [compileFrom]
  | f :: rest, ls, hb, hp, hls => by
    have hp2 := List.pairwise_cons.mp hp
    have ih := compileFrom_length es rest (f.1 + f.2.length)
      (fun e he => hb e (List.mem_cons_of_mem f he))
      hp2.2
      (fun e he => hp2.1 e he)
    have h1 := hb f (by simp)
    have h2 := hls f (by simp)
    unfold compileFrom
    simp only [List.length_append, List.length_replicate, ih]
    omega

theorem compileFrom_frag (es : Nat) :
    ∀ (m : SegMap) (ls : Nat),
      (∀ e ∈ m, e.1 + e.2.length ≤ es) → m.Pairwise entsep →
      (∀ e ∈ m, ls ≤ e.1) →
      ∀ e ∈ m, ∀ k : Nat, k < e.2.length →
        (compileFrom es ls m).getD (e.1 + k - ls) false = e.2.getD k false
  | [], ls, _, _, _ => by
    intro e he
    simp at he
  | f :: rest, ls, hb, hp, hls => by
    intro e he k hk
    have hp2 := List.pairwise_cons.mp hp
    have hfls := hls f (by simp)
    unfold compileFrom
    rcases List.mem_cons.mp he with heq | he2
    · subst heq
      rw [List.getD_append _ _ _ _ (by simp; omega)]
      rw [List.getD_append_right _ _ _ _ (by simp; omega)]
      have hidx : e.1 + k - ls - (List.replicate (e.1 - ls) false).length = k := by
        simp
        omega
      rw [hidx]
    · have hsep := hp2.1 e he2
      unfold entsep at hsep
      rw [List.getD_append_right _ _ _ _ (by simp; omega)]
      have ih := compileFrom_frag es rest (f.1 + f.2.length)
        (fun x hx => hb x (List.mem_cons_of_mem f hx))
        hp2.2
        (fun x hx => hp2.1 x hx)
        e he2 k hk
      have hidx : e.1 + k - ls -
          (List.replicate (f.1 - ls) false ++ f.2).length =
          e.1 + k - (f.1 + f.2.length) := by
        simp
        omega
      rw [hidx]
      exact ih

theorem compileFrom_pad (es : Nat) :
    ∀ (m : SegMap) (ls i : Nat),
      (∀ e ∈ m, e.1 + e.2.length ≤ es) → m.Pairwise entsep →
      (∀ e ∈ m, ls ≤ e.1) → ls ≤ i →
      (∀ e ∈ m, i < e.1 ∨ e.1 + e.2.length ≤ i) →
      (compileFrom es ls m).getD (i - ls) false = false
  | [], ls, i, _, _, _, _, _ => by
    unfold compileFrom
    exact getD_replicate_false _ _
  | f :: rest, ls, i, hb, hp, hls, hlsi, hout => by
    have hp2 := List.pairwise_cons.mp hp
    have hfls := hls f (by simp)
    unfold compileFrom
    rcases hout f (by simp) with hlt | hge
    · rw [List.getD_append _ _ _ _ (by simp; omega)]
      rw [List.getD_append _ _ _ _ (by simp; omega)]
      exact getD_replicate_false _ _
    · rw [List.getD_append_right _ _ _ _ (by simp; omega)]
      have ih := compileFrom_pad es rest (f.1 + f.2.length) i
        (fun x hx => hb x (List.mem_cons_of_mem f hx))
        hp2.2
        (fun x hx => hp2.1 x hx)
        (by omega)
        (fun x hx => hout x (List.mem_cons_of_mem f hx))
      have hidx : i - ls - (List.replicate (f.1 - ls) false ++ f.2).length =
          i - (f.1 + f.2.length) := by
        simp
        omega
      rw [hidx]
      exact ih

theorem insertAll_wf (es : Nat) :
    ∀ (l : List (Nat × List Bool)) (m m2 : SegMap),
      SegMap.wf es m → (∀ e ∈ l, 0 < e.2.length) →
      insertAll es l m = some m2 →
      SegMap.wf es m2 ∧ m2.Perm (l ++ m)
  | [], m, m2, hwf, _, h => by
    unfold insertAll at h
    cases h
    exact ⟨hwf, by simp⟩
  | e :: rest, m, m2, hwf, hne, h => by
    unfold insertAll at h
    cases hi : SegMap.insert es e.1 e.2 m with
    | none => rw [hi] at h; cases h
    | some m1 =>
      rw [hi] at h
      have step := insert_wf_perm es e.1 e.2 m m1 hwf (hne e (by simp)) hi
      have ih := insertAll_wf es rest m1 m2 step.2.2.1
        (fun x hx => hne x (List.mem_cons_of_mem e hx)) h
      refine ⟨ih.1, ?_⟩
      have hperm1 : m2.Perm (rest ++ m1) := ih.2
      have hperm2 : (rest ++ m1).Perm (rest ++ (e :: m)) := by
        refine List.Perm.append_left rest ?_
        simpa using step.2.2.2
      exact hperm1.trans (hperm2.trans List.perm_middle)

instance : IsAntisymm (Nat × List Bool) fun a b => a.1 < b.1 :=
  ⟨fun _ _ h1 h2 => absurd (h1.trans h2) (lt_irrefl _)⟩

theorem wf_sorted_lt (es : Nat) (m : SegMap) (hwf : SegMap.wf es m) :
    m.Pairwise fun a b => a.1 < b.1 := by
  refine List.Pairwise.imp_of_mem ?_ hwf.2
  intro a b ha _ hab
  have h1 := (hwf.1 a ha).1
  unfold entsep at hab
  omega

/-- Claim C7: `compile()` is determined by the set of inserted fragments
alone — two insertion sequences that are permutations of one another give
the same interval map and hence the same bit vector; the result has exactly
the declared expected size, carries each inserted fragment at its bit
offset, and is zero at every bit offset covered by no fragment (the gap and
tail padding). -/
theorem c7_compile_padded_concat (es : Nat) (l1 l2 : List (Nat × List Bool))
    (m1 m2 : SegMap) (hne : ∀ e ∈ l1, 0 < e.2.length) (hperm : l1.Perm l2)
    (h1 : insertAll es l1 [] = some m1) (h2 : insertAll es l2 [] = some m2) :
    m1 = m2 ∧
    (SegMap.compile es m1).length = es ∧
    (∀ e ∈ l1, ∀ k : Nat, k < e.2.length →
      (SegMap.compile es m1).getD (e.1 + k) false = e.2.getD k false) ∧
    (∀ i : Nat, (∀ e ∈ l1, i < e.1 ∨ e.1 + e.2.length ≤ i) →
      (SegMap.compile es m1).getD i false = false) := by
  have hwfnil : SegMap.wf es [] := ⟨by simp, List.Pairwise.nil⟩
  obtain ⟨hwf1, hp1⟩ := insertAll_wf es l1 [] m1 hwfnil hne h1
  have hne2 : ∀ e ∈ l2, 0 < e.2.length := fun e he =>
    hne e (hperm.mem_iff.mpr he)
  obtain ⟨hwf2, hp2⟩ := insertAll_wf es l2 [] m2 hwfnil hne2 h2
  have hm1l1 : m1.Perm l1 := by simpa using hp1
  have heq : m1 = m2 := by
    have hp12 : m1.Perm m2 := by
      refine hm1l1.trans (hperm.trans ?_)
      exact (by simpa using hp2 : m2.Perm l2).symm
    exact List.eq_of_perm_of_sorted hp12 (wf_sorted_lt es m1 hwf1)
      (wf_sorted_lt es m2 hwf2)
  have hmem : ∀ e ∈ l1, e ∈ m1 := fun e he => hm1l1.mem_iff.mpr he
  refine ⟨heq, ?_, ?_, ?_⟩
  · have := compileFrom_length es m1 0 (fun e he => (hwf1.1 e he).2) hwf1.2
      (fun e he => Nat.zero_le _)
    simpa [SegMap.compile] using this
  · intro e he k hk
    have := compileFrom_frag es m1 0 (fun x hx => (hwf1.1 x hx).2) hwf1.2
      (fun x hx => Nat.zero_le _) e (hmem e he) k hk
    simpa [SegMap.compile] using this
  · intro i hi
    have := compileFrom_pad es m1 0 i (fun x hx => (hwf1.1 x hx).2) hwf1.2
      (fun x hx => Nat.zero_le _) (Nat.zero_le _)
      (fun x hx => hi x (hm1l1.mem_iff.mp hx))
    simpa [SegMap.compile] using this

/-- Witness for C7: the fragments `[64, 128)` and `[0, 64)` inserted in
either order into an expected 192-bit segment give the same map, whose
compiled bit vector is 192 bits long. -/
theorem c7_witness :
    (SegMap.compile 192
      [((0 : Nat), List.replicate 64 false), (64, List.replicate 64 true)]).length = 192 := by
  have h := c7_compile_padded_concat 192
    [((64 : Nat), List.replicate 64 true), (0, List.replicate 64 false)]
    [((0 : Nat), List.replicate 64 false), (64, List.replicate 64 true)]
    [((0 : Nat), List.replicate 64 false), (64, List.replicate 64 true)]
    [((0 : Nat), List.replicate 64 false), (64, List.replicate 64 true)]
    (by decide) (by decide) (by decide) (by decide)
  exact h.2.1

/-! ### The module cache (claim C5) -/

theorem lookupModule_mem (t : HWType) :
    ∀ entries : List (HWType × Nat), ∀ m : Nat,
      lookupModule t entries = some m → (t, m) ∈ entries := by
  intro entries
  induction entries with
  | nil => intro m h; simp [lookupModule] at h
  | cons e rest ih =>
    intro m h
    cases e with
    | mk u k =>
      unfold lookupModule at h
      split at h
      · cases h
        subst u
        exact List.mem_cons_self _ _
      · exact List.mem_cons_of_mem _ (ih m h)

theorem lookupModule_of_mem (t : HWType) (m : Nat) :
    ∀ entries : List (HWType × Nat),
      entries.Pairwise (fun a b => a.1 ≠ b.1 ∧ a.2 ≠ b.2) →
      (t, m) ∈ entries → lookupModule t entries = some m := by
  intro entries
  induction entries with
  | nil => intro _ h; simp at h
  | cons e rest ih =>
    intro hp hm
    have hp2 := List.pairwise_cons.mp hp
    rcases List.mem_cons.mp hm with heq | hm2
    · rw [← heq]
      simp [lookupModule]
    · have hd := hp2.1 (t, m) hm2
      cases e with
      | mk u k =>
        unfold lookupModule
        split
        · exfalso
          exact hd.1 (by assumption)
        · exact ih hp2.2 hm2

theorem requestModule_spec (t : HWType) (st : CacheState) (hwf : CacheState.wf st) :
    ((t, (requestModule t st).1) ∈ (requestModule t st).2.entries) ∧
    CacheState.wf (requestModule t st).2 ∧
    (∀ e ∈ st.entries, e ∈ (requestModule t st).2.entries) := by
  unfold requestModule
  cases hl : lookupModule t st.entries with
  | some m =>
    exact ⟨lookupModule_mem t st.entries m hl, hwf, fun e he => he⟩
  | none =>
    refine ⟨List.mem_cons_self _ _, ⟨?_, ?_⟩, fun e he => List.mem_cons_of_mem _ he⟩
    · intro e he
      rcases List.mem_cons.mp he with heq | he2
      · subst heq
        simp
      · have := hwf.1 e he2
        simp
        omega
    · refine List.Pairwise.cons ?_ hwf.2
      intro e he
      constructor
      · intro hte
        have hte2 : t = e.1 := hte
        have : lookupModule t st.entries = some e.2 := by
          refine lookupModule_of_mem t e.2 st.entries hwf.2 ?_
          rw [hte2]
          simpa using he
        rw [hl] at this
        cases this
      · have := hwf.1 e he
        simp
        omega

theorem requestModule_of_mem (t : HWType) (m : Nat) (st : CacheState)
    (hwf : CacheState.wf st) (hm : (t, m) ∈ st.entries) :
    requestModule t st = (m, st) := by
  unfold requestModule
  rw [lookupModule_of_mem t m st.entries hwf.2 hm]

theorem requestModule_ne (t2 : HWType) (st2 : CacheState)
    (hwf2 : CacheState.wf st2) (t : HWType) (m : Nat)
    (hmem : (t, m) ∈ st2.entries) (hne : t ≠ t2) :
    (requestModule t2 st2).1 ≠ m := by
  have hsym : Symmetric (fun a b : HWType × Nat => a.1 ≠ b.1 ∧ a.2 ≠ b.2) :=
    fun _ _ hab => ⟨hab.1.symm, hab.2.symm⟩
  unfold requestModule
  cases hl2 : lookupModule t2 st2.entries with
  | some m2 =>
    have hm2 := lookupModule_mem t2 _ m2 hl2
    intro heq
    have heq2 : m2 = m := heq
    subst heq2
    have hdiff : (t, m2) ≠ (t2, m2) := fun hc => hne (congrArg Prod.fst hc)
    exact (List.Pairwise.forall hsym hwf2.2 hmem hm2 hdiff).2 rfl
  | none =>
    intro heq
    have heq2 : st2.nextId = m := heq
    have := hwf2.1 _ hmem
    omega

theorem processRequests_wf :
    ∀ (l : List HWType) (st : CacheState), CacheState.wf st →
      CacheState.wf (processRequests l st)
  | [], st, hwf => hwf
  | t :: rest, st, hwf => by
    have h1 := (requestModule_spec t st hwf).2.1
    have := processRequests_wf rest (requestModule t st).2 h1
    simpa [processRequests, List.foldl_cons] using this

/-- Claim C5: with a sane cache, a second `TypeSchema::buildEncoder`
(resp. `buildDecoder`) request for the same type returns the same generated
module and leaves the cache untouched (the module is generated at most
once, later requests only instantiate it), a request for a different type
never returns that module, and any sequence of requests preserves cache
sanity (at most one module per distinct type). -/
theorem c5_module_cache (st : CacheState) (hwf : CacheState.wf st)
    (t t2 : HWType) (hne : t ≠ t2) (l : List HWType) :
    ((TypeSchema.buildEncoder t (TypeSchema.buildEncoder t st).2).1 =
      (TypeSchema.buildEncoder t st).1) ∧
    ((TypeSchema.buildEncoder t (TypeSchema.buildEncoder t st).2).2 =
      (TypeSchema.buildEncoder t st).2) ∧
    ((TypeSchema.buildDecoder t (TypeSchema.buildDecoder t st).2).1 =
      (TypeSchema.buildDecoder t st).1) ∧
    ((TypeSchema.buildDecoder t (TypeSchema.buildDecoder t st).2).2 =
      (TypeSchema.buildDecoder t st).2) ∧
    ((TypeSchema.buildEncoder t2 (TypeSchema.buildEncoder t st).2).1 ≠
      (TypeSchema.buildEncoder t st).1) ∧
    CacheState.wf (processRequests l st) := by
  obtain ⟨hmem, hwf1, hsub⟩ := requestModule_spec t st hwf
  have hrepeat : requestModule t (requestModule t st).2 =
      ((requestModule t st).1, (requestModule t st).2) :=
    requestModule_of_mem t (requestModule t st).1 (requestModule t st).2 hwf1 hmem
  refine ⟨?_, ?_, ?_, ?_, ?_, processRequests_wf l st hwf⟩
  · show (requestModule t (requestModule t st).2).1 = (requestModule t st).1
    rw [hrepeat]
  · show (requestModule t (requestModule t st).2).2 = (requestModule t st).2
    rw [hrepeat]
  · show (requestModule t (requestModule t st).2).1 = (requestModule t st).1
    rw [hrepeat]
  · show (requestModule t (requestModule t st).2).2 = (requestModule t st).2
    rw [hrepeat]
  · show (requestModule t2 (requestModule t st).2).1 ≠ (requestModule t st).1
    exact requestModule_ne t2 (requestModule t st).2 hwf1 t
      (requestModule t st).1 hmem hne

/-- Witness for C5: starting from the empty cache, requesting `i8` twice
and `i16` once. -/
theorem c5_witness :
    ((TypeSchema.buildEncoder (.int .signless 8)
        (TypeSchema.buildEncoder (.int .signless 8) ⟨[], 0⟩).2).1 =
      (TypeSchema.buildEncoder (.int .signless 8) ⟨[], 0⟩).1) ∧
    ((TypeSchema.buildEncoder (.int .signless 8)
        (TypeSchema.buildEncoder (.int .signless 8) ⟨[], 0⟩).2).2 =
      (TypeSchema.buildEncoder (.int .signless 8) ⟨[], 0⟩).2) ∧
    ((TypeSchema.buildDecoder (.int .signless 8)
        (TypeSchema.buildDecoder (.int .signless 8) ⟨[], 0⟩).2).1 =
      (TypeSchema.buildDecoder (.int .signless 8) ⟨[], 0⟩).1) ∧
    ((TypeSchema.buildDecoder (.int .signless 8)
        (TypeSchema.buildDecoder (.int .signless 8) ⟨[], 0⟩).2).2 =
      (TypeSchema.buildDecoder (.int .signless 8) ⟨[], 0⟩).2) ∧
    ((TypeSchema.buildEncoder (.int .signless 16)
        (TypeSchema.buildEncoder (.int .signless 8) ⟨[], 0⟩).2).1 ≠
      (TypeSchema.buildEncoder (.int .signless 8) ⟨[], 0⟩).1) ∧
    CacheState.wf (processRequests [.int .signless 8, .int .signless 16] ⟨[], 0⟩) :=
  c5_module_cache ⟨[], 0⟩ ⟨by simp, List.Pairwise.nil⟩
    (.int .signless 8) (.int .signless 16) (by decide)
    [.int .signless 8, .int .signless 16]

/-! ### The decoder's assertion layer (claims C8 and C10) -/

theorem bitsToNat_eq_zero (bs : List Bool) :
    bitsToNat bs = 0 ↔ ∀ b ∈ bs, b = false := by
  induction bs with
  | nil => simp [bitsToNat]
  | cons b rest ih =>
    unfold bitsToNat at ih ⊢
    rw [List.foldr_cons]
    cases b <;> simp [ih]

theorem sliceVal_eq_zero_iff (msg : List Bool) (lo w : Nat) :
    sliceVal msg lo w = 0 ↔ ∀ k, k < w → msg.getD (lo + k) false = false := by
  unfold sliceVal
  rw [bitsToNat_eq_zero]
  constructor
  · intro h k hk
    exact h _ (List.mem_map.mpr ⟨k, List.mem_range.mpr hk, rfl⟩)
  · intro h b hb
    obtain ⟨k, hk, rfl⟩ := List.mem_map.mp hb
    exact h k (List.mem_range.mp hk)

theorem sliceVal_zero_of_zero (msg : List Bool) (lo w lo2 w2 : Nat)
    (h : sliceVal msg lo w = 0) (h1 : lo ≤ lo2) (h2 : lo2 + w2 ≤ lo + w) :
    sliceVal msg lo2 w2 = 0 := by
  rw [sliceVal_eq_zero_iff] at h ⊢
  intro k hk
  have h3 := h (lo2 + k - lo) (by omega)
  rw [show lo + (lo2 + k - lo) = lo2 + k from by omega] at h3
  exact h3

theorem assertHolds_eq_elim (msg : List Bool) (lo w e : Nat)
    (h : assertHolds msg ⟨lo, w, .eq, e⟩ = true) :
    sliceVal msg lo w = e % 2 ^ w := by
  simpa [assertHolds] using h

theorem assertHolds_ule_elim (msg : List Bool) (lo w e : Nat)
    (h : assertHolds msg ⟨lo, w, .ule, e⟩ = true) :
    sliceVal msg lo w ≤ e % 2 ^ w := by
  simpa [assertHolds] using h

theorem decodeFieldsModel_sub (msgSz dwc : Nat) :
    ∀ (l : List ((CapnpTy × Nat) × (String × HWType)))
      (asl : List HWAssert) (fns : List (List Bool → HWValue)),
      decodeFieldsModel msgSz dwc l = some (asl, fns) →
      ∀ p ∈ l, ∃ pas pf,
        decodeFieldModel msgSz dwc p.2.2 p.1.1 p.1.2 = some (pas, pf) ∧
        ∀ a ∈ pas, a ∈ asl
  | [], asl, fns, h => by
    intro p hp
    simp at hp
  | (cf, mf) :: rest, asl, fns, h => by
    intro p hp
    unfold decodeFieldsModel at h
    cases h1 : decodeFieldModel msgSz dwc mf.2 cf.1 cf.2 with
    | none => rw [h1] at h; cases h
    | some pr =>
      rw [h1] at h
      cases pr with
      | mk as1 f =>
        cases h2 : decodeFieldsModel msgSz dwc rest with
        | none => rw [h2] at h; cases h
        | some pr2 =>
          cases pr2 with
          | mk as2 fs =>
            rw [h2] at h
            injection h with h3
            have hfst : as1 ++ as2 = asl := congrArg Prod.fst h3
            rcases List.mem_cons.mp hp with heq | hp2
            · subst heq
              exact ⟨as1, f, h1, fun a ha => hfst ▸ List.mem_append_left as2 ha⟩
            · obtain ⟨pas, pf, hdm, hsub⟩ :=
                decodeFieldsModel_sub msgSz dwc rest as2 fs h2 p hp2
              exact ⟨pas, pf, hdm,
                fun a ha => hfst ▸ List.mem_append_right as1 (hsub a ha)⟩

theorem decodeListModel_asserts (msgSz dwc : Nat) (sg : Sg) (w n : Nat)
    (elemTy : CapnpTy) (slot : Nat) (asl : List HWAssert)
    (fn : List Bool → HWValue)
    (h : decodeListModel msgSz dwc sg w n elemTy slot = some (asl, fn)) :
    ∃ code, expectedElemSizeField (bits elemTy) = some code ∧
      asl = [⟨64 + dwc * 64 + slot * 64, 2, .eq, 1⟩,
             ⟨64 + dwc * 64 + slot * 64 + 32, 3, .eq, code⟩,
             ⟨64 + dwc * 64 + slot * 64 + 35, 29, .ule, n⟩] := by
  simp only [decodeListModel] at h
  split at h
  next => cases h
  next code heq =>
    split at h
    next => cases h
    next =>
      injection h with h2
      exact ⟨code, heq, (congrArg Prod.fst h2).symm⟩

theorem decodeFieldModel_array (msgSz dwc : Nat) (sg : Sg) (w n : Nat)
    (ety : CapnpTy) (slot : Nat) (pas : List HWAssert)
    (pf : List Bool → HWValue)
    (h : decodeFieldModel msgSz dwc (.array (.int sg w) n) (.list ety) slot =
      some (pas, pf)) :
    decodeListModel msgSz dwc sg w n ety slot = some (pas, pf) := by
  simpa [decodeFieldModel] using h

theorem buildDecoder_spec (t : HWType) (m : DecoderModule)
    (h : TypeSchemaImpl.buildDecoder t = some m) :
    ∃ info sz fieldAsserts valFns,
      getTypeSchema t = some info ∧
      TypeSchemaImpl.size t = some sz ∧
      decodeFieldsModel sz info.dataWordCount (info.fields.zip (fieldTypes t)) =
        some (fieldAsserts, valFns) ∧
      m.edge = EventControl.atPosEdge ∧
      m.asserts = ⟨0, 32, .eq, 0⟩ :: ⟨32, 16, .eq, info.dataWordCount⟩ ::
        ⟨48, 16, .eq, info.pointerCount⟩ :: fieldAsserts := by
  unfold TypeSchemaImpl.buildDecoder at h
  split at h
  next info sz hg hsz =>
    split at h
    next => cases h
    next fas vfns hdf =>
      injection h with h2
      exact ⟨info, sz, fas, vfns, hg, hsz, hdf, by rw [← h2], by rw [← h2]⟩
  next => cases h

/-- Claim C8: the generated decoder emits its wire-format checks as
assertions inside an `sv.always` block at the positive clock edge, guarded
by `valid` (nothing is checked when `valid` is low); when `valid` is high,
passing the assertion layer forces the root pointer's type tag to be the
struct tag (0), its data-word-count field to equal the schema's data word
count and its pointer-count field to equal the schema's pointer count, and
for every list-typed field the field's pointer tag to be the list tag (1),
its element-size code to equal the code expected for the element width,
and its declared length to be at most the declared array capacity. -/
theorem c8_decoder_assertions (t : HWType) (m : DecoderModule)
    (info : StructInfo) (hinfo : getTypeSchema t = some info)
    (h : TypeSchemaImpl.buildDecoder t = some m) :
    m.edge = EventControl.atPosEdge ∧
    (∀ msg : List Bool, decoderAccepts m false msg = true) ∧
    (∀ msg : List Bool, decoderAccepts m true msg = true →
      sliceVal msg 0 2 = 0 ∧
      sliceVal msg 32 16 = info.dataWordCount % 2 ^ 16 ∧
      sliceVal msg 48 16 = info.pointerCount % 2 ^ 16 ∧
      (∀ p ∈ info.fields.zip (fieldTypes t),
        ∀ (sg : Sg) (w n : Nat) (ety : CapnpTy),
        p.2.2 = HWType.array (.int sg w) n → p.1.1 = CapnpTy.list ety →
        sliceVal msg (64 + info.dataWordCount * 64 + p.1.2 * 64) 2 = 1 ∧
        sliceVal msg (64 + info.dataWordCount * 64 + p.1.2 * 64 + 32) 3 =
          (expectedElemSizeField (bits ety)).getD 0 % 2 ^ 3 ∧
        sliceVal msg (64 + info.dataWordCount * 64 + p.1.2 * 64 + 35) 29 ≤
          n % 2 ^ 29)) := by
  obtain ⟨info2, sz, fas, vfns, hg2, hsz, hdf, hedge, hasserts⟩ :=
    buildDecoder_spec t m h
  rw [hinfo] at hg2
  injection hg2 with hi
  subst hi
  refine ⟨hedge, ?_, ?_⟩
  · intro msg
    simp [decoderAccepts]
  · intro msg hacc
    have hall : ∀ a ∈ m.asserts, assertHolds msg a = true := by
      intro a ha
      have := hacc
      unfold decoderAccepts at this
      simp only [Bool.not_true, Bool.false_or, List.all_eq_true] at this
      exact this a ha
    have h1 := hall _ (hasserts ▸ List.mem_cons_self _ _)
    have h2 := hall _ (hasserts ▸ List.mem_cons_of_mem _ (List.mem_cons_self _ _))
    have h3 := hall _ (hasserts ▸ List.mem_cons_of_mem _
      (List.mem_cons_of_mem _ (List.mem_cons_self _ _)))
    have h0 : sliceVal msg 0 32 = 0 := by
      simpa using assertHolds_eq_elim msg 0 32 0 h1
    refine ⟨sliceVal_zero_of_zero msg 0 32 0 2 h0 (by omega) (by omega),
      assertHolds_eq_elim msg 32 16 _ h2,
      assertHolds_eq_elim msg 48 16 _ h3, ?_⟩
    intro p hp sg w n ety hpt hpc
    obtain ⟨pas, pf, hdm, hsub⟩ :=
      decodeFieldsModel_sub sz info.dataWordCount _ fas vfns hdf p hp
    rw [hpt, hpc] at hdm
    have hlm := decodeFieldModel_array sz info.dataWordCount sg w n ety p.1.2
      pas pf hdm
    obtain ⟨code, hcode, hpas⟩ :=
      decodeListModel_asserts sz info.dataWordCount sg w n ety p.1.2 pas pf hlm
    have hfassub : ∀ a : HWAssert, a ∈ fas → a ∈ m.asserts := by
      intro a ha
      rw [hasserts]
      exact List.mem_cons_of_mem _ (List.mem_cons_of_mem _
        (List.mem_cons_of_mem _ ha))
    have ha1 := hall _ (hfassub _ (hsub _ (hpas ▸ List.mem_cons_self _ _)))
    have ha2 := hall _ (hfassub _ (hsub _ (hpas ▸ List.mem_cons_of_mem _
      (List.mem_cons_self _ _))))
    have ha3 := hall _ (hfassub _ (hsub _ (hpas ▸ List.mem_cons_of_mem _
      (List.mem_cons_of_mem _ (List.mem_cons_self _ _)))))
    refine ⟨by simpa using assertHolds_eq_elim msg _ 2 1 ha1, ?_,
      assertHolds_ule_elim msg _ 29 n ha3⟩
    have := assertHolds_eq_elim msg _ 3 code ha2
    rw [hcode]
    simpa using this

/-- Claim C10: the first assertion of every generated decoder compares the
entire low 32 bits of the root pointer (type tag plus 30-bit offset field)
against zero; consequently an accepted message always has offset field
zero, and any message with a non-zero offset field is rejected by the
assertion layer regardless of its other header fields — the decoder
accepts only messages whose root struct content begins immediately after
the root pointer word. -/
theorem c10_root_offset_asserted (t : HWType) (m : DecoderModule)
    (h : TypeSchemaImpl.buildDecoder t = some m) :
    m.asserts.head? = some ⟨0, 32, .eq, 0⟩ ∧
    (∀ msg : List Bool, decoderAccepts m true msg = true →
      sliceVal msg 2 30 = 0) ∧
    (∀ msg : List Bool, sliceVal msg 2 30 ≠ 0 →
      decoderAccepts m true msg = false) := by
  obtain ⟨info, sz, fas, vfns, hg, hsz, hdf, hedge, hasserts⟩ :=
    buildDecoder_spec t m h
  have hoff : ∀ msg : List Bool, decoderAccepts m true msg = true →
      sliceVal msg 2 30 = 0 := by
    intro msg hacc
    have hall : ∀ a ∈ m.asserts, assertHolds msg a = true := by
      intro a ha
      unfold decoderAccepts at hacc
      simp only [Bool.not_true, Bool.false_or, List.all_eq_true] at hacc
      exact hacc a ha
    have h1 := hall _ (hasserts ▸ List.mem_cons_self _ _)
    have h0 : sliceVal msg 0 32 = 0 := by
      simpa using assertHolds_eq_elim msg 0 32 0 h1
    exact sliceVal_zero_of_zero msg 0 32 2 30 h0 (by omega) (by omega)
  refine ⟨by rw [hasserts]; rfl, hoff, ?_⟩
  intro msg hnz
  cases hb : decoderAccepts m true msg with
  | false => rfl
  | true => exact absurd (hoff msg hb) hnz

set_option maxRecDepth 100000 in
set_option maxHeartbeats 4000000 in
/-- Witness for C8 at `c8t` (a struct with a `UInt8` ground field and a
`List(UInt16)` field), evaluated on an actual encoded message. -/
theorem c8_witness :
    c8mod.edge = EventControl.atPosEdge ∧
    decoderAccepts c8mod false c8msg = true ∧
    sliceVal c8msg 0 2 = 0 ∧
    sliceVal c8msg 32 16 = c8info.dataWordCount % 2 ^ 16 ∧
    sliceVal c8msg 48 16 = c8info.pointerCount % 2 ^ 16 ∧
    sliceVal c8msg (64 + c8info.dataWordCount * 64 + 0 * 64) 2 = 1 ∧
    sliceVal c8msg (64 + c8info.dataWordCount * 64 + 0 * 64 + 32) 3 =
      (expectedElemSizeField (bits CapnpTy.uint16)).getD 0 % 2 ^ 3 ∧
    sliceVal c8msg (64 + c8info.dataWordCount * 64 + 0 * 64 + 35) 29 ≤
      2 % 2 ^ 29 := by
  have hmod : TypeSchemaImpl.buildDecoder c8t = some c8mod :=
    isSome_eq_some_getD _ emptyDecoder (by decide)
  have h := c8_decoder_assertions c8t c8mod c8info (by decide) hmod
  have hacc : decoderAccepts c8mod true c8msg = true := by decide
  have h3 := h.2.2 c8msg hacc
  have hfield := h3.2.2.2
    ((CapnpTy.list .uint16, 0), ("l", .array (.int .signless 16) 2))
    (by decide) Sg.signless 16 2 CapnpTy.uint16 rfl rfl
  exact ⟨h.1, h.2.1 c8msg, h3.1, h3.2.1, h3.2.2.1, hfield.1, hfield.2.1,
    hfield.2.2⟩

set_option maxRecDepth 100000 in
set_option maxHeartbeats 4000000 in
/-- Witness for C10 at `i8`: a message whose tag (0), data word count (1)
and pointer count (0) are all correct but whose root pointer offset field
is 4 fails the decoder's assertion layer. -/
theorem c10_witness :
    c10mod.asserts.head? = some ⟨0, 32, .eq, 0⟩ ∧
    sliceVal c10msg 2 30 = 4 ∧
    sliceVal c10msg 0 2 = 0 ∧
    sliceVal c10msg 32 16 = 1 ∧
    sliceVal c10msg 48 16 = 0 ∧
    decoderAccepts c10mod true c10msg = false := by
  have hmod : TypeSchemaImpl.buildDecoder (.int .signless 8) = some c10mod :=
    isSome_eq_some_getD _ emptyDecoder (by decide)
  have h := c10_root_offset_asserted (.int .signless 8) c10mod hmod
  exact ⟨h.1, by decide, by decide, by decide, by decide,
    h.2.2 c10msg (by decide)⟩

/-! ### The round-trip property (claim C1) -/

set_option maxRecDepth 100000 in
set_option maxHeartbeats 4000000 in
/-- Claim C1 fails on the code: for the supported type
`struct {a: array<1 x i8>, b: array<1 x i8>}` and the value
`{a = [5], b = [0]}`, driving the generated encoder's output, uncorrupted,
straight into the generated decoder passes every hardware assertion but
decodes to `{a = [0], b = [5]}`, not the original value.  The decoder
computes each list payload's position as
`offsetField + pointerBitOffset + 64`, adding the pointer's
relative offset (a word count written by the encoder as
`(listOffset - offset - 64) / 64`) to a bit offset without scaling by 64,
so field `a`'s payload is read from inside field `b`'s pointer word. -/
theorem c1_decoder_breaks_roundtrip :
    TypeSchemaImpl.isSupported c1T = true ∧
    roundTrip c1T c1v = some c1w ∧
    c1w ≠ c1v := by
  have hE : TypeSchemaImpl.buildEncoder c1T c1v = some c1enc :=
    isSome_eq_some_getD _ [] (by decide)
  have hM : TypeSchemaImpl.buildDecoder c1T = some c1mod :=
    isSome_eq_some_getD _ emptyDecoder (by decide)
  have hAcc : decoderAccepts c1mod true c1enc = true := by decide
  have hDec : c1mod.dec c1enc = some c1w := by decide
  refine ⟨by decide, ?_, by decide⟩
  unfold roundTrip
  rw [hE, Option.some_bind, hM, Option.some_bind, hAcc]
  simpa using hDec

end ESICapnp
